import Mathlib

/-!
Verification of the data-quality and alignment engine of the Algoritmos-ETL
repository (`data_cleaner.py`, `data_unifier.py`, and the transform/unify
core of `etl_pipeline.py`).

Rows are Python dicts with keys Date, Open, High, Low, Close, Volume;
every numeric field is accessed through `row.get(key)`, which returns
`None` both for a key that is present with value `None` and for an absent
key.  `Record` models the collapsed view (absent and null identified, as
`dict.get` sees it); `RawRecord` below keeps the present/absent distinction
for the error-handling development.  Numeric values are modelled as `Int`
(the code only compares and copies them, never does arithmetic), dates as
`String` in `YYYY-MM-DD` form, compared lexicographically exactly as Python
compares `str`.
-/

namespace ETL

/-- One trading-day row, as seen through `dict.get`: each field is `none`
when the value is null or the key absent. -/
structure Record where
  Date : Option String
  Open : Option Int
  High : Option Int
  Low : Option Int
  Close : Option Int
  Volume : Option Int
deriving DecidableEq, Repr

/-- The values of the five numeric keys of a row, in the order of
`_NUMERIC_KEYS = ("Open", "High", "Low", "Close", "Volume")`. -/
def numericValues (row : Record) : List (Option Int) :=
  [row.Open, row.High, row.Low, row.Close, row.Volume]

/-- Inner loop of `detect_missing_values`: scan the numeric values of the
row at index `i`, incrementing the cell counter for each `None` and
appending `i` to the positions list the first time. -/
def scanRowForMissing (i : Nat) (acc : Nat × List Nat) :
    List (Option Int) → Nat × List Nat
  | [] => acc
  | v :: vs =>
    match v with
    | none =>
      scanRowForMissing i
        (acc.1 + 1, if i ∈ acc.2 then acc.2 else acc.2 ++ [i]) vs
    | some _ => scanRowForMissing i acc vs

/-- Outer loop of `detect_missing_values` over row indices. -/
def detectMissingGo (i : Nat) (acc : Nat × List Nat) :
    List Record → Nat × List Nat
  | [] => acc
  | row :: rest =>
    detectMissingGo (i + 1) (scanRowForMissing i acc (numericValues row)) rest

/-- `detect_missing_values(asset_data)` from `data_cleaner.py`: counts the
`None` cells among Open, High, Low, Close, Volume and records the row
indices having at least one `None`, each at most once, in detection
order. -/
def detect_missing_values (asset_data : List Record) : Nat × List Nat :=
  if asset_data.isEmpty then (0, [])
  else detectMissingGo 0 (0, []) asset_data

/-- Number of missing numeric cells in one row (specification side). -/
def missingFieldCount (row : Record) : Nat :=
  (numericValues row).countP (·.isNone)

/-- Whether a row has at least one missing numeric cell. -/
def rowHasMissing (row : Record) : Bool :=
  (numericValues row).any (·.isNone)

/-- One anomaly reported by `detect_inconsistencies`: the dict
`{"index": i, "type": t, "row": dict(row)}`. -/
structure Anomaly where
  index : Nat
  type : String
  row : Record
deriving DecidableEq, Repr

/-- The anomalies the row at index `i` contributes, in emission order:
the `High < Low` check, then the Close range check, then the Open range
check; rows with `Low` or `High` missing are skipped. -/
def rowAnoms (i : Nat) (row : Record) : List Anomaly :=
  match row.Low, row.High with
  | some low, some high =>
    (if high < low then [⟨i, "High_less_than_Low", row⟩] else []) ++
    (match row.Close with
     | some close =>
       if close < low ∨ close > high then
         [⟨i, "Close_outside_Low_High_range", row⟩]
       else []
     | none => []) ++
    (match row.Open with
     | some op =>
       if op < low ∨ op > high then
         [⟨i, "Open_outside_Low_High_range", row⟩]
       else []
     | none => [])
  | _, _ => []

/-- Loop of `detect_inconsistencies` over row indices. -/
def detectInconsGo (i : Nat) : List Record → List Anomaly
  | [] => []
  | row :: rest => rowAnoms i row ++ detectInconsGo (i + 1) rest

/-- `detect_inconsistencies(asset_data)` from `data_cleaner.py`. -/
def detect_inconsistencies (asset_data : List Record) : List Anomaly :=
  detectInconsGo 0 asset_data

/-- Forward-fill pass of `clean_with_forward_fill`, with the running
`last_valid` value made explicit. -/
def cwffAux (last : Option Int) : List Record → List Record
  | [] => []
  | row :: rest =>
    match row.Close with
    | some c => row :: cwffAux (some c) rest
    | none =>
      match last with
      | some v => { row with Close := some v } :: cwffAux (some v) rest
      | none => row :: cwffAux none rest

/-- `clean_with_forward_fill(asset_data)` from `data_cleaner.py`: replaces
each `None` Close by the last valid Close seen so far (the Python code
updates the rows in place and returns the same list; here the updated
sequence is returned). -/
def clean_with_forward_fill (asset_data : List Record) : List Record :=
  if asset_data.isEmpty then asset_data
  else cwffAux none asset_data

/-- `remove_invalid_rows(asset_data)` from `data_cleaner.py`: builds a new
list holding exactly the rows whose Close is not `None`. -/
def remove_invalid_rows (asset_data : List Record) : List Record :=
  asset_data.foldl
    (fun result row => if row.Close.isSome then result ++ [row] else result) []

/-- A universe / aligned mapping: a Python dict from symbol to row list,
modelled as an association list (theorems that need dict semantics assume
the keys are distinct, as they are in a dict). -/
abbrev Universe := List (String × List Record)

/-- `build_master_calendar(all_assets_data)` from `data_unifier.py`:
collect every non-null `Date` of every row of every asset into a set and
return its elements sorted ascending (`sorted(all_dates)`). -/
def build_master_calendar (all_assets_data : Universe) : List String :=
  (((all_assets_data.flatMap (fun p => p.2)).filterMap
      (fun row => row.Date)).dedup).insertionSort (· ≤ ·)

/-- The `list_to_dict` lookup of `align_assets_to_calendar`: the dict maps
each non-null date to (a copy of) the row carrying it, later rows
overwriting earlier ones, so a query returns the last row whose `Date` is
the queried date. -/
def dateToRow (rows : List Record) (d : String) : Option Record :=
  rows.foldl
    (fun acc row =>
      match row.Date with
      | some d2 => if d2 = d then some row else acc
      | none => acc)
    none

/-- The placeholder row inserted for a calendar date with no data. -/
def placeholderRow (date : String) : Record :=
  ⟨some date, none, none, none, none, none⟩

/-- The aligned list built for one asset: one row per calendar date, the
asset's own row when the date is in the lookup, a placeholder otherwise. -/
def alignOne (rows : List Record) (master_calendar : List String) : List Record :=
  master_calendar.map (fun date =>
    match dateToRow rows date with
    | some row => row
    | none => placeholderRow date)

/-- `align_assets_to_calendar(all_assets_data, master_calendar)` from
`data_unifier.py`. -/
def align_assets_to_calendar (all_assets_data : Universe)
    (master_calendar : List String) : Universe :=
  all_assets_data.map (fun p => (p.1, alignOne p.2 master_calendar))

/-- One row of the master dataset: the dict
`{"Date": d, "<symbol>_Close": v, ...}`, with the close columns in dict
insertion order. -/
structure MasterRow where
  Date : Option String
  closes : List (String × Option Int)
deriving DecidableEq, Repr

/-- The close columns of the master row at index `i`: for each symbol in
order, `aligned_data[symbol][i].get("Close")`.  Returns `none` when a
symbol is not a key of the dict or its list is shorter than `i + 1`
(Python would raise `KeyError` / `IndexError`). -/
def closesAt (aligned_data : Universe) (i : Nat) :
    List String → Option (List (String × Option Int))
  | [] => some []
  | s :: rest =>
    match aligned_data.lookup s with
    | none => none
    | some rows =>
      match rows.get? i with
      | none => none
      | some r =>
        (closesAt aligned_data i rest).map (fun cs => (s ++ "_Close", r.Close) :: cs)

/-- The master row at index `i`: `{"Date": aligned_data[symbols[0]][i]["Date"]}`
extended with one close column per symbol. -/
def masterRowAt (aligned_data : Universe) (symbols : List String)
    (rows0 : List Record) (i : Nat) : Option MasterRow :=
  match rows0.get? i with
  | none => none
  | some r0 =>
    (closesAt aligned_data i symbols).map (fun cs => ⟨r0.Date, cs⟩)

/-- The loop of `build_master_dataset` over the row indices `0..n-1`. -/
def buildMasterRows (aligned_data : Universe) (symbols : List String)
    (rows0 : List Record) : List Nat → Option (List MasterRow)
  | [] => some []
  | i :: is =>
    match masterRowAt aligned_data symbols rows0 i with
    | none => none
    | some row => (buildMasterRows aligned_data symbols rows0 is).map (row :: ·)

/-- `build_master_dataset(aligned_data)` from `data_unifier.py`: sorts the
symbols, returns `[]` if there are none, otherwise emits
`n = len(aligned_data[symbols[0]])` master rows.  `none` models the
`KeyError` / `IndexError` Python raises on a malformed input dict. -/
def build_master_dataset (aligned_data : Universe) : Option (List MasterRow) :=
  match (aligned_data.map Prod.fst).insertionSort (· ≤ ·) with
  | [] => some []
  | s0 :: _ =>
    match aligned_data.lookup s0 with
    | none => none
    | some rows0 =>
      buildMasterRows aligned_data ((aligned_data.map Prod.fst).insertionSort (· ≤ ·))
        rows0 (List.range rows0.length)

/-- The close value `aligned_data[s][i].get("Close")`, collapsed to `none`
when the symbol or the index is not present (specification side). -/
def closeAt (aligned_data : Universe) (s : String) (i : Nat) : Option Int :=
  match aligned_data.lookup s with
  | none => none
  | some rows =>
    match rows.get? i with
    | none => none
    | some r => r.Close

/-- The transformation step of `run_etl` (`etl_pipeline.py`, the per-symbol
loop): forward-fill Close, then drop the rows still lacking Close. -/
def etl_clean (uni : Universe) : Universe :=
  uni.map (fun p => (p.1, remove_invalid_rows (clean_with_forward_fill p.2)))

/-- The unification step of `run_etl`: master calendar, alignment, master
dataset, composed over the cleaned universe. -/
def etl_master (uni : Universe) : Option (List MasterRow) :=
  let cleaned := etl_clean uni
  let master_calendar := build_master_calendar cleaned
  build_master_dataset (align_assets_to_calendar cleaned master_calendar)

/-- A row as a raw Python dict: the outer `Option` is key presence, the
inner one the stored value, so `none` is an absent key and `some none` a
key present with value `None`. -/
structure RawRecord where
  Date : Option (Option String)
  Open : Option (Option Int)
  High : Option (Option Int)
  Low : Option (Option Int)
  Close : Option (Option Int)
  Volume : Option (Option Int)
deriving DecidableEq, Repr

/-- `row.get(key)` on a raw dict: `None` both for an absent key and for a
key present with value `None`. -/
def getVal {α : Type} : Option (Option α) → Option α
  | none => none
  | some v => v

/-- The view of a raw row through `dict.get`: an absent key reads as null. -/
def eraseRecord (r : RawRecord) : Record :=
  ⟨getVal r.Date, getVal r.Open, getVal r.High, getVal r.Low, getVal r.Close,
    getVal r.Volume⟩

/-- An anomaly whose snapshot is the raw row. -/
structure RawAnomaly where
  index : Nat
  type : String
  row : RawRecord
deriving DecidableEq, Repr

/-- Collapse the snapshot of a raw anomaly. -/
def eraseAnomaly (a : RawAnomaly) : Anomaly :=
  ⟨a.index, a.type, eraseRecord a.row⟩

/-- `detect_missing_values` run on raw dicts: every field is read with
`row.get(key)`, i.e. through `getVal`. -/
def detect_missing_values_raw (asset_data : List RawRecord) : Nat × List Nat :=
  if asset_data.isEmpty then (0, [])
  else detectMissingGoRaw 0 (0, []) asset_data
where
  detectMissingGoRaw (i : Nat) (acc : Nat × List Nat) :
      List RawRecord → Nat × List Nat
    | [] => acc
    | row :: rest =>
      detectMissingGoRaw (i + 1)
        (scanRowForMissing i acc
          [getVal row.Open, getVal row.High, getVal row.Low, getVal row.Close,
            getVal row.Volume]) rest

/-- The anomalies of one raw row, fields read through `row.get`. -/
def rowAnomsRaw (i : Nat) (row : RawRecord) : List RawAnomaly :=
  match getVal row.Low, getVal row.High with
  | some low, some high =>
    (if high < low then [⟨i, "High_less_than_Low", row⟩] else []) ++
    (match getVal row.Close with
     | some close =>
       if close < low ∨ close > high then
         [⟨i, "Close_outside_Low_High_range", row⟩]
       else []
     | none => []) ++
    (match getVal row.Open with
     | some op =>
       if op < low ∨ op > high then
         [⟨i, "Open_outside_Low_High_range", row⟩]
       else []
     | none => [])
  | _, _ => []

/-- `detect_inconsistencies` run on raw dicts. -/
def detect_inconsistencies_raw (asset_data : List RawRecord) : List RawAnomaly :=
  go 0 asset_data
where
  go (i : Nat) : List RawRecord → List RawAnomaly
    | [] => []
    | row :: rest => rowAnomsRaw i row ++ go (i + 1) rest

/-- `remove_invalid_rows` run on raw dicts: `row.get("Close") is not None`. -/
def remove_invalid_rows_raw (asset_data : List RawRecord) : List RawRecord :=
  asset_data.foldl
    (fun result row => if (getVal row.Close).isSome then result ++ [row] else result) []

/-- The two-asset universe of the empty-after-cleaning scenario: asset `A`
has one usable row, asset `B` one row whose Close is null and never
becomes usable. -/
def exRowA : Record := ⟨some "2020-01-01", none, none, none, some 1, none⟩

/-- The single row of asset `B`: Close null, nothing to forward-fill from. -/
def exRowB : Record := ⟨some "2020-01-01", none, none, none, none, none⟩

/-- Universe pairing `A` with a usable series and `B` with a series that
cleans to the empty list. -/
def exUniverse : Universe := [("A", [exRowA]), ("B", [exRowB])]

theorem foldl_append_filter {α : Type} (p : α → Bool) (l : List α) : ∀ acc : List α,
    l.foldl (fun result row => if p row then result ++ [row] else result) acc =
      acc ++ l.filter p := by
  induction l with
  | nil => intro acc; simp
  | cons x l ih =>
    intro acc
    by_cases h : p x <;> simp [List.foldl, h, ih, List.filter_cons]

theorem remove_invalid_rows_eq_filter (asset_data : List Record) :
    remove_invalid_rows asset_data = asset_data.filter (fun row => row.Close.isSome) := by
  simpa using foldl_append_filter (fun row : Record => row.Close.isSome) asset_data []

/-- C5: `remove_invalid_rows` returns exactly the records with non-null
Close, in their original relative order (a sublist of the input, which it
does not modify), so every record of the result has non-null Close. -/
theorem remove_invalid_rows_spec (asset_data : List Record) :
    remove_invalid_rows asset_data = asset_data.filter (fun row => row.Close.isSome) ∧
    (remove_invalid_rows asset_data).Sublist asset_data ∧
    (∀ row ∈ remove_invalid_rows asset_data, row.Close ≠ none) ∧
    (∀ row, row ∈ remove_invalid_rows asset_data ↔ row ∈ asset_data ∧ row.Close.isSome) := by
  refine ⟨remove_invalid_rows_eq_filter asset_data, ?_, ?_, ?_⟩
  · rw [remove_invalid_rows_eq_filter]; exact List.filter_sublist asset_data
  · intro row hrow
    rw [remove_invalid_rows_eq_filter] at hrow
    have := (List.mem_filter.mp hrow).2
    simpa [Option.isSome_iff_ne_none] using this
  · intro row
    rw [remove_invalid_rows_eq_filter]
    exact List.mem_filter

theorem scanRowForMissing_eq (i : Nat) (vals : List (Option Int)) : ∀ acc : Nat × List Nat,
    scanRowForMissing i acc vals =
      (acc.1 + vals.countP (·.isNone),
        if vals.any (·.isNone) then (if i ∈ acc.2 then acc.2 else acc.2 ++ [i]) else acc.2) := by
  induction vals with
  | nil => intro acc; simp [scanRowForMissing]
  | cons v vs ih =>
    intro acc
    cases v with
    | some x => simpa [scanRowForMissing, List.countP_cons] using ih acc
    | none =>
      have hmem : i ∈ (if i ∈ acc.2 then acc.2 else acc.2 ++ [i]) := by
        by_cases h : i ∈ acc.2 <;> simp [h]
      rw [scanRowForMissing, ih]
      simp only [List.countP_cons, List.any_cons, Option.isNone_none, Bool.true_or,
        if_pos hmem, Prod.mk.injEq, hmem, if_true]
      refine ⟨by omega, ?_⟩
      by_cases h : i ∈ acc.2 <;> simp [h]

theorem detectMissingGo_eq (rest : List Record) : ∀ (i : Nat) (acc : Nat × List Nat),
    (∀ j ∈ acc.2, j < i) →
    detectMissingGo i acc rest =
      (acc.1 + (rest.map missingFieldCount).sum,
        acc.2 ++ ((rest.enumFrom i).filter (fun p => rowHasMissing p.2)).map Prod.fst) := by
  induction rest with
  | nil => intro i acc h; simp [detectMissingGo]
  | cons row rest ih =>
    intro i acc h
    have hi : i ∉ acc.2 := fun hmem => absurd (h i hmem) (lt_irrefl i)
    rw [detectMissingGo, scanRowForMissing_eq, if_neg hi]
    have hinv : ∀ j ∈ (if (numericValues row).any (·.isNone) then acc.2 ++ [i] else acc.2),
        j < i + 1 := by
      intro j hj
      by_cases hc : (numericValues row).any (·.isNone)
      · rw [if_pos hc, List.mem_append] at hj
        rcases hj with hj | hj
        · exact Nat.lt_succ_of_lt (h j hj)
        · simp only [List.mem_singleton] at hj; omega
      · rw [if_neg hc] at hj; exact Nat.lt_succ_of_lt (h j hj)
    rw [ih (i + 1) _ hinv]
    simp only [List.enumFrom_cons, List.filter_cons, List.map_cons, List.sum_cons]
    by_cases hc : rowHasMissing row
    · have hc2 : (numericValues row).any (·.isNone) = true := hc
      simp [hc, hc2, missingFieldCount, Nat.add_assoc]
    · have hc2 : ¬ ((numericValues row).any (·.isNone) = true) := hc
      have hz : missingFieldCount row = 0 := by
        simp only [missingFieldCount, List.countP_eq_zero]
        intro v hv
        by_contra hcon
        exact hc2 (List.any_eq_true.mpr ⟨v, hv, by simpa using hcon⟩)
      rw [if_neg hc2, if_neg (show ¬ (rowHasMissing row = true) from hc2)]
      simp [Nat.add_assoc]
      rfl

/-- C8: `detect_missing_values` returns `(0, [])` on the empty series, and
in general the total count of null cells among the five numeric fields
together with the list of distinct row positions having at least one null
cell, each listed once, in increasing first-encountered order, so the
positions list is at most as long as the series. -/
theorem detect_missing_values_spec (asset_data : List Record) :
    (detect_missing_values asset_data).1 = (asset_data.map missingFieldCount).sum ∧
    (detect_missing_values asset_data).2 =
      (asset_data.enum.filter (fun p => rowHasMissing p.2)).map Prod.fst ∧
    detect_missing_values ([] : List Record) = (0, []) ∧
    (detect_missing_values asset_data).2.length ≤ asset_data.length := by
  have hmain : detect_missing_values asset_data =
      ((asset_data.map missingFieldCount).sum,
        (asset_data.enum.filter (fun p => rowHasMissing p.2)).map Prod.fst) := by
    cases asset_data with
    | nil => simp [detect_missing_values]
    | cons row rest =>
      rw [detect_missing_values, if_neg (by simp)]
      rw [detectMissingGo_eq _ 0 (0, []) (by intro j hj; simp at hj)]
      simp [List.enum]
  refine ⟨by rw [hmain], by rw [hmain], by simp [detect_missing_values], ?_⟩
  rw [hmain]
  calc ((asset_data.enum.filter (fun p => rowHasMissing p.2)).map Prod.fst).length
      = (asset_data.enum.filter (fun p => rowHasMissing p.2)).length := List.length_map _ _
    _ ≤ asset_data.enum.length := List.length_filter_le _ _
    _ = asset_data.length := List.enum_length

theorem getLast?_cons_or {α : Type} (c : α) (M : List α) (last : Option α) :
    ((c :: M).getLast?).or last = (M.getLast?).or (some c) := by
  induction M with
  | nil => simp
  | cons m ms ih =>
    rw [List.getLast?_cons_cons]
    cases hms : (m :: ms).getLast? with
    | none => simp [List.getLast?] at hms
    | some x => simp

theorem cwffAux_get? (asset_data : List Record) : ∀ (last : Option Int) (i : Nat) (row : Record),
    asset_data.get? i = some row →
    (cwffAux last asset_data).get? i = some
      { row with Close :=
          match row.Close with
          | some c => some c
          | none => (((asset_data.take i).filterMap (fun r => r.Close)).getLast?).or last } := by
  induction asset_data with
  | nil => intro last i row h; simp at h
  | cons r0 rest ih =>
    intro last i row h
    cases i with
    | zero =>
      rw [List.get?_cons_zero] at h
      injection h with h
      subst h
      cases hc : r0.Close with
      | some c =>
        simp only [cwffAux, hc, List.get?_cons_zero, Option.some.injEq]
        rw [← hc]
      | none =>
        cases last with
        | some v =>
          simp only [cwffAux, hc, List.get?_cons_zero, List.take_zero, List.filterMap_nil,
            List.getLast?_nil, Option.none_or]
        | none =>
          simp only [cwffAux, hc, List.get?_cons_zero, List.take_zero, List.filterMap_nil,
            List.getLast?_nil, Option.none_or, Option.some.injEq]
          rw [← hc]
    | succ k =>
      rw [List.get?_cons_succ] at h
      cases hc : r0.Close with
      | some c =>
        simp only [cwffAux, hc, List.get?_cons_succ]
        rw [ih (some c) k row h]
        simp only [List.take_succ_cons, List.filterMap_cons, hc, Option.some.injEq]
        cases hrc : row.Close with
        | some d => simp only [hrc]
        | none => simp only [hrc]; rw [getLast?_cons_or]
      | none =>
        cases last with
        | some v =>
          simp only [cwffAux, hc, List.get?_cons_succ]
          rw [ih (some v) k row h]
          simp only [List.take_succ_cons, List.filterMap_cons, hc]
        | none =>
          simp only [cwffAux, hc, List.get?_cons_succ]
          rw [ih none k row h]
          simp only [List.take_succ_cons, List.filterMap_cons, hc]

theorem cwffAux_length (asset_data : List Record) : ∀ last : Option Int,
    (cwffAux last asset_data).length = asset_data.length := by
  induction asset_data with
  | nil => intro last; rfl
  | cons r0 rest ih =>
    intro last
    cases hc : r0.Close with
    | some c => simp only [cwffAux, hc, List.length_cons, ih]
    | none =>
      cases last with
      | some v => simp only [cwffAux, hc, List.length_cons, ih]
      | none => simp only [cwffAux, hc, List.length_cons, ih]

theorem clean_with_forward_fill_eq_aux (asset_data : List Record) :
    clean_with_forward_fill asset_data = cwffAux none asset_data := by
  cases asset_data with
  | nil => rfl
  | cons r rest => rw [clean_with_forward_fill, if_neg (by simp)]

/-- C3: forward fill keeps every originally non-null Close, replaces a null
Close by the Close of the nearest preceding record whose Close was
originally non-null (leaving a leading null run untouched when no such
record exists), modifies no field other than Close, and preserves the
length and order of the series. -/
theorem clean_with_forward_fill_spec (asset_data : List Record) :
    (clean_with_forward_fill asset_data).length = asset_data.length ∧
    ∀ i row, asset_data.get? i = some row →
      (clean_with_forward_fill asset_data).get? i = some
        { row with Close :=
            match row.Close with
            | some c => some c
            | none => ((asset_data.take i).filterMap (fun r => r.Close)).getLast? } := by
  rw [clean_with_forward_fill_eq_aux]
  refine ⟨cwffAux_length asset_data none, ?_⟩
  intro i row h
  rw [cwffAux_get? asset_data none i row h]
  cases hrc : row.Close with
  | some c => rfl
  | none => simp

theorem cwffAux_idem (asset_data : List Record) : ∀ last : Option Int,
    cwffAux last (cwffAux last asset_data) = cwffAux last asset_data := by
  induction asset_data with
  | nil => intro last; rfl
  | cons r0 rest ih =>
    intro last
    cases hc : r0.Close with
    | some c => simp only [cwffAux, hc]; rw [ih (some c)]
    | none =>
      cases last with
      | some v => simp only [cwffAux, hc]; rw [ih (some v)]
      | none => simp only [cwffAux, hc]; rw [ih none]

/-- C4: `clean_with_forward_fill` is idempotent: applying it twice yields
the same sequence of records as applying it once. -/
theorem clean_with_forward_fill_idempotent (asset_data : List Record) :
    clean_with_forward_fill (clean_with_forward_fill asset_data) =
      clean_with_forward_fill asset_data := by
  rw [clean_with_forward_fill_eq_aux, clean_with_forward_fill_eq_aux]
  exact cwffAux_idem asset_data none

theorem mem_rowAnoms_index {i : Nat} {row : Record} {a : Anomaly}
    (ha : a ∈ rowAnoms i row) : a.index = i := by
  unfold rowAnoms at ha
  cases hL : row.Low with
  | none => rw [hL] at ha; simp at ha
  | some low =>
    cases hH : row.High with
    | none => rw [hL, hH] at ha; simp at ha
    | some high =>
      rw [hL, hH] at ha
      simp only [List.mem_append] at ha
      rcases ha with (ha | ha) | ha
      · split at ha <;> simp_all
      · cases hC : row.Close with
        | none => rw [hC] at ha; simp at ha
        | some c => rw [hC] at ha; split at ha <;> simp_all
      · cases hO : row.Open with
        | none => rw [hO] at ha; simp at ha
        | some o => rw [hO] at ha; split at ha <;> simp_all

theorem mem_rowAnoms_lowHigh {i : Nat} {row : Record} {a : Anomaly}
    (ha : a ∈ rowAnoms i row) : row.Low ≠ none ∧ row.High ≠ none := by
  cases hL : row.Low with
  | none => simp only [rowAnoms, hL] at ha; simp at ha
  | some low =>
    cases hH : row.High with
    | none => simp only [rowAnoms, hL, hH] at ha; simp at ha
    | some high => exact ⟨by simp [hL], by simp [hH]⟩

theorem detectInconsGo_index_ge (asset_data : List Record) : ∀ (i : Nat) (a : Anomaly),
    a ∈ detectInconsGo i asset_data → i ≤ a.index := by
  induction asset_data with
  | nil => intro i a ha; simp [detectInconsGo] at ha
  | cons r0 rest ih =>
    intro i a ha
    rw [detectInconsGo, List.mem_append] at ha
    rcases ha with ha | ha
    · exact le_of_eq (mem_rowAnoms_index ha).symm
    · exact le_trans (Nat.le_succ i) (ih (i + 1) a ha)

theorem detectInconsGo_mem (asset_data : List Record) : ∀ (i : Nat) (a : Anomaly),
    a ∈ detectInconsGo i asset_data →
    ∃ k row, asset_data.get? k = some row ∧ a.index = i + k ∧
      row.Low ≠ none ∧ row.High ≠ none := by
  induction asset_data with
  | nil => intro i a ha; simp [detectInconsGo] at ha
  | cons r0 rest ih =>
    intro i a ha
    rw [detectInconsGo, List.mem_append] at ha
    rcases ha with ha | ha
    · exact ⟨0, r0, rfl, by simpa using mem_rowAnoms_index ha,
        (mem_rowAnoms_lowHigh ha).1, (mem_rowAnoms_lowHigh ha).2⟩
    · obtain ⟨k, row, hk, hidx, hL, hH⟩ := ih (i + 1) a ha
      exact ⟨k + 1, row, by simpa using hk, by omega, hL, hH⟩

theorem detectInconsGo_filter (asset_data : List Record) : ∀ (i k : Nat) (row : Record),
    asset_data.get? k = some row →
    (detectInconsGo i asset_data).filter (fun a => a.index == i + k) =
      rowAnoms (i + k) row := by
  induction asset_data with
  | nil => intro i k row h; simp at h
  | cons r0 rest ih =>
    intro i k row h
    rw [detectInconsGo, List.filter_append]
    cases k with
    | zero =>
      rw [List.get?_cons_zero] at h
      injection h with h
      subst h
      have h1 : (rowAnoms i r0).filter (fun a => a.index == i + 0) = rowAnoms i r0 := by
        apply List.filter_eq_self.mpr
        intro a ha
        simp [mem_rowAnoms_index ha]
      have h2 : (detectInconsGo (i + 1) rest).filter (fun a => a.index == i + 0) = [] := by
        apply List.filter_eq_nil_iff.mpr
        intro a ha
        have := detectInconsGo_index_ge rest (i + 1) a ha
        simp only [beq_iff_eq]
        omega
      rw [h1, h2, List.append_nil, Nat.add_zero]
    | succ k2 =>
      rw [List.get?_cons_succ] at h
      have h1 : (rowAnoms i r0).filter (fun a => a.index == i + (k2 + 1)) = [] := by
        apply List.filter_eq_nil_iff.mpr
        intro a ha
        have := mem_rowAnoms_index ha
        simp only [beq_iff_eq]
        omega
      have h2 := ih (i + 1) k2 row h
      rw [h1, List.nil_append, show i + (k2 + 1) = (i + 1) + k2 by omega]
      exact h2

/-- C7: `detect_inconsistencies` emits anomalies only at positions whose
Low and High are both non-null; at such a position it emits, in order, a
High-below-Low anomaly iff `high < low`, a Close-out-of-range anomaly iff
Close is non-null and outside `[low, high]`, and an Open-out-of-range
anomaly iff Open is non-null and outside `[low, high]`; in particular the
record `open=5, high=10, low=6, close=8` yields exactly the one
Open-out-of-range anomaly. -/
theorem detect_inconsistencies_spec :
    (∀ (asset_data : List Record) (i : Nat) (row : Record), asset_data.get? i = some row →
      (detect_inconsistencies asset_data).filter (fun a => a.index == i) =
        (match row.Low, row.High with
         | some low, some high =>
           (if high < low then [⟨i, "High_less_than_Low", row⟩] else []) ++
           (match row.Close with
            | some close =>
              if close < low ∨ close > high then
                [⟨i, "Close_outside_Low_High_range", row⟩]
              else []
            | none => []) ++
           (match row.Open with
            | some op =>
              if op < low ∨ op > high then
                [⟨i, "Open_outside_Low_High_range", row⟩]
              else []
            | none => [])
         | _, _ => ([] : List Anomaly))) ∧
    (∀ (asset_data : List Record) (a : Anomaly), a ∈ detect_inconsistencies asset_data →
      a.index < asset_data.length ∧
      ∃ row, asset_data.get? a.index = some row ∧ row.Low ≠ none ∧ row.High ≠ none) ∧
    detect_inconsistencies [⟨none, some 5, some 10, some 6, some 8, none⟩] =
      [⟨0, "Open_outside_Low_High_range", ⟨none, some 5, some 10, some 6, some 8, none⟩⟩] := by
  refine ⟨?_, ?_, by rfl⟩
  · intro asset_data i row h
    have := detectInconsGo_filter asset_data 0 i row h
    simpa [detect_inconsistencies, rowAnoms] using this
  · intro asset_data a ha
    obtain ⟨k, row, hk, hidx, hL, hH⟩ := detectInconsGo_mem asset_data 0 a ha
    have hklen : k < asset_data.length := by
      rcases List.get?_eq_some.mp hk with ⟨hlt, _⟩
      exact hlt
    refine ⟨by omega, row, by simpa [hidx] using hk, hL, hH⟩

/-- Witness for C7 at the spec's scenario record. -/
theorem detect_inconsistencies_spec_witness :
    (detect_inconsistencies [⟨none, some 5, some 10, some 6, some 8, none⟩]).filter
        (fun a => a.index == 0) =
      [⟨0, "Open_outside_Low_High_range", ⟨none, some 5, some 10, some 6, some 8, none⟩⟩] := by
  have h := detect_inconsistencies_spec.1 [⟨none, some 5, some 10, some 6, some 8, none⟩] 0
    ⟨none, some 5, some 10, some 6, some 8, none⟩ rfl
  simpa using h

theorem build_master_calendar_nodup (all_assets_data : Universe) :
    (build_master_calendar all_assets_data).Nodup := by
  unfold build_master_calendar
  exact (List.perm_insertionSort _ _).nodup_iff.mpr (List.nodup_dedup _)

theorem build_master_calendar_sorted_lt (all_assets_data : Universe) :
    (build_master_calendar all_assets_data).Sorted (· < ·) :=
  (List.sorted_insertionSort _ _).lt_of_le (build_master_calendar_nodup all_assets_data)

theorem mem_build_master_calendar {all_assets_data : Universe} {d : String} :
    d ∈ build_master_calendar all_assets_data ↔
      ∃ p ∈ all_assets_data, ∃ row ∈ p.2, row.Date = some d := by
  unfold build_master_calendar
  rw [List.mem_insertionSort, List.mem_dedup, List.mem_filterMap]
  constructor
  · rintro ⟨row, hrow, hd⟩
    obtain ⟨p, hp, hrp⟩ := List.mem_flatMap.mp hrow
    exact ⟨p, hp, row, hrp, hd⟩
  · rintro ⟨p, hp, row, hrp, hd⟩
    exact ⟨row, List.mem_flatMap.mpr ⟨p, hp, hrp⟩, hd⟩

/-- C6: the master calendar is strictly increasing (hence duplicate-free)
and contains every non-null record date of every asset of the universe. -/
theorem build_master_calendar_spec (all_assets_data : Universe) :
    (build_master_calendar all_assets_data).Sorted (· < ·) ∧
    (build_master_calendar all_assets_data).Nodup ∧
    ∀ symbol rows, (symbol, rows) ∈ all_assets_data → ∀ row ∈ rows, ∀ d,
      row.Date = some d → d ∈ build_master_calendar all_assets_data := by
  refine ⟨build_master_calendar_sorted_lt all_assets_data,
    build_master_calendar_nodup all_assets_data, ?_⟩
  intro symbol rows hmem row hrow d hd
  exact mem_build_master_calendar.mpr ⟨(symbol, rows), hmem, row, hrow, hd⟩

/-- Witness for C6 on the two-asset example universe. -/
theorem build_master_calendar_spec_witness :
    "2020-01-01" ∈ build_master_calendar exUniverse :=
  (build_master_calendar_spec exUniverse).2.2 "A" [exRowA] (by simp [exUniverse])
    exRowA (by simp) "2020-01-01" rfl

theorem lookup_align (all_assets_data : Universe) (master_calendar : List String)
    (s : String) :
    (align_assets_to_calendar all_assets_data master_calendar).lookup s =
      (all_assets_data.lookup s).map (fun rows => alignOne rows master_calendar) := by
  induction all_assets_data with
  | nil => rfl
  | cons p rest ih =>
    obtain ⟨k, v⟩ := p
    simp only [align_assets_to_calendar, List.map_cons, List.lookup]
    cases hsk : s == k with
    | true => rfl
    | false => exact ih

theorem lookup_of_mem_nodup (all_assets_data : Universe) (s : String)
    (rows : List Record) (hmem : (s, rows) ∈ all_assets_data)
    (hnodup : (all_assets_data.map Prod.fst).Nodup) :
    all_assets_data.lookup s = some rows := by
  induction all_assets_data with
  | nil => simp at hmem
  | cons p rest ih =>
    obtain ⟨k, v⟩ := p
    rw [List.mem_cons] at hmem
    simp only [List.map_cons, List.nodup_cons] at hnodup
    rcases hmem with heq | hmem
    · injection heq with h1 h2
      subst h1
      subst h2
      simp [List.lookup]
    · have hk : ¬ (k = s) := by
        intro hks
        subst hks
        exact hnodup.1 (List.mem_map.mpr ⟨(k, rows), hmem, rfl⟩)
      have hsk : (s == k) = false := beq_eq_false_iff_ne.mpr (fun h => hk h.symm)
      simp only [List.lookup, hsk]
      exact ih hmem hnodup.2

theorem alignOne_length (rows : List Record) (master_calendar : List String) :
    (alignOne rows master_calendar).length = master_calendar.length := by
  simp [alignOne]

theorem dateToRow_invariant (d : String) (rows : List Record) : ∀ (acc : Option Record),
    (∀ r, acc = some r → r.Date = some d) →
    ∀ r, (rows.foldl (fun acc row =>
        match row.Date with
        | some d2 => if d2 = d then some row else acc
        | none => acc) acc) = some r → r.Date = some d := by
  induction rows with
  | nil => intro acc hacc r hr; exact hacc r hr
  | cons row rest ih =>
    intro acc hacc r hr
    rw [List.foldl_cons] at hr
    apply ih _ _ r hr
    intro r2 hr2
    cases hD : row.Date with
    | none => simp only [hD] at hr2; exact hacc r2 hr2
    | some d2 =>
      simp only [hD] at hr2
      by_cases hdd : d2 = d
      · rw [if_pos hdd] at hr2
        injection hr2 with h
        subst h
        rw [hD, hdd]
      · rw [if_neg hdd] at hr2
        exact hacc r2 hr2

theorem dateToRow_date (rows : List Record) (d : String) :
    ∀ r, dateToRow rows d = some r → r.Date = some d :=
  dateToRow_invariant d rows none (by intro r hr; exact Option.noConfusion hr)

theorem dateToRow_eq_none (rows : List Record) (d : String)
    (h : ∀ row ∈ rows, row.Date ≠ some d) : dateToRow rows d = none := by
  unfold dateToRow
  induction rows with
  | nil => rfl
  | cons row rest ih =>
    rw [List.foldl_cons]
    have hrow := h row (List.mem_cons_self row rest)
    have hrest := fun r hr => h r (List.mem_cons_of_mem _ hr)
    cases hD : row.Date with
    | none =>
      simp only [hD]
      exact ih hrest
    | some d2 =>
      have hdd : ¬ (d2 = d) := by
        intro he
        exact hrow (by rw [hD, he])
      simp only [hD, if_neg hdd]
      exact ih hrest

theorem alignOne_get? (rows : List Record) (master_calendar : List String)
    (i : Nat) (d : String) (h : master_calendar.get? i = some d) :
    (alignOne rows master_calendar).get? i = some
      (match dateToRow rows d with
       | some row => row
       | none => placeholderRow d) := by
  rw [alignOne, List.get?_map, h]
  rfl

/-- C2: for every symbol of the universe, its aligned series has exactly
one record per master-calendar date, the i-th record carrying the i-th
calendar date; at a calendar date where the symbol has no record the
aligned entry is the all-null placeholder for that date. -/
theorem align_assets_to_calendar_spec (all_assets_data : Universe)
    (master_calendar : List String) (symbol : String) (rows : List Record)
    (hmem : (symbol, rows) ∈ all_assets_data)
    (hnodup : (all_assets_data.map Prod.fst).Nodup) :
    ∃ arows,
      (align_assets_to_calendar all_assets_data master_calendar).lookup symbol = some arows ∧
      arows.length = master_calendar.length ∧
      ∀ i d, master_calendar.get? i = some d →
        ∃ r, arows.get? i = some r ∧ r.Date = some d ∧
          ((∀ row ∈ rows, row.Date ≠ some d) → r = placeholderRow d) := by
  refine ⟨alignOne rows master_calendar, ?_, alignOne_length rows master_calendar, ?_⟩
  · rw [lookup_align, lookup_of_mem_nodup all_assets_data symbol rows hmem hnodup]
    rfl
  · intro i d hd
    rw [alignOne_get? rows master_calendar i d hd]
    refine ⟨_, rfl, ?_, ?_⟩
    · cases hdr : dateToRow rows d with
      | some r =>
        simp only [hdr]
        exact dateToRow_date rows d r hdr
      | none => simp [hdr, placeholderRow]
    · intro hnone
      rw [dateToRow_eq_none rows d hnone]

/-- Witness for C2: asset `A` of the example universe aligned to a
two-date calendar. -/
theorem align_assets_to_calendar_spec_witness :
    ∃ arows,
      (align_assets_to_calendar exUniverse ["2020-01-01", "2020-01-02"]).lookup "A" =
        some arows ∧
      arows.length = (["2020-01-01", "2020-01-02"] : List String).length ∧
      ∀ i d, (["2020-01-01", "2020-01-02"] : List String).get? i = some d →
        ∃ r, arows.get? i = some r ∧ r.Date = some d ∧
          ((∀ row ∈ [exRowA], row.Date ≠ some d) → r = placeholderRow d) :=
  align_assets_to_calendar_spec exUniverse ["2020-01-01", "2020-01-02"] "A" [exRowA]
    (by simp [exUniverse]) (by simp [exUniverse])

theorem lookup_mem (all_assets_data : Universe) (s : String) (rows : List Record)
    (h : all_assets_data.lookup s = some rows) : (s, rows) ∈ all_assets_data := by
  induction all_assets_data with
  | nil => simp [List.lookup] at h
  | cons p rest ih =>
    obtain ⟨k, v⟩ := p
    by_cases hsk : s = k
    · subst hsk
      simp [List.lookup] at h
      subst h
      exact List.mem_cons_self _ _
    · have hf : (s == k) = false := beq_eq_false_iff_ne.mpr hsk
      simp only [List.lookup, hf] at h
      exact List.mem_cons_of_mem _ (ih h)

theorem mem_keys_lookup_isSome (all_assets_data : Universe) (s : String)
    (h : s ∈ all_assets_data.map Prod.fst) :
    ∃ rows, all_assets_data.lookup s = some rows := by
  induction all_assets_data with
  | nil => simp at h
  | cons p rest ih =>
    obtain ⟨k, v⟩ := p
    simp only [List.map_cons, List.mem_cons] at h
    by_cases hsk : s = k
    · subst hsk
      exact ⟨v, by simp [List.lookup]⟩
    · have hf : (s == k) = false := beq_eq_false_iff_ne.mpr hsk
      rcases h with h | h
      · exact absurd h hsk
      · obtain ⟨rows, hr⟩ := ih h
        refine ⟨rows, ?_⟩
        simp only [List.lookup, hf]
        exact hr

theorem closesAt_eq (aligned_data : Universe) (i : Nat) (n : Nat)
    (hlen : ∀ p ∈ aligned_data, p.2.length = n) (hin : i < n) :
    ∀ symbols : List String, (∀ s ∈ symbols, s ∈ aligned_data.map Prod.fst) →
    closesAt aligned_data i symbols =
      some (symbols.map (fun s => (s ++ "_Close", closeAt aligned_data s i))) := by
  intro symbols
  induction symbols with
  | nil => intro _; rfl
  | cons s rest ih =>
    intro hs
    obtain ⟨rows, hrows⟩ :=
      mem_keys_lookup_isSome aligned_data s (hs s (List.mem_cons_self _ _))
    have hlenr : rows.length = n := hlen (s, rows) (lookup_mem aligned_data s rows hrows)
    have hi : i < rows.length := by omega
    obtain ⟨r, hr⟩ : ∃ r, rows.get? i = some r := ⟨rows.get ⟨i, hi⟩, List.get?_eq_get hi⟩
    rw [closesAt]
    simp only [hrows, hr, ih (fun x hx => hs x (List.mem_cons_of_mem _ hx))]
    have hr2 : rows[i]? = some r := by
      rw [← List.get?_eq_getElem?]
      exact hr
    simp [closeAt, hrows, hr, hr2]

theorem buildMasterRows_eq (aligned_data : Universe) (symbols : List String)
    (rows0 : List Record) (n : Nat) (rowAt : Nat → MasterRow)
    (h : ∀ i, i < n → masterRowAt aligned_data symbols rows0 i = some (rowAt i)) :
    ∀ is : List Nat, (∀ i ∈ is, i < n) →
      buildMasterRows aligned_data symbols rows0 is = some (is.map rowAt) := by
  intro is
  induction is with
  | nil => intro _; rfl
  | cons i rest ih =>
    intro his
    rw [buildMasterRows]
    simp only [h i (his i (List.mem_cons_self _ _)),
      ih (fun j hj => his j (List.mem_cons_of_mem _ hj))]
    rfl

theorem masterRowAt_eq (aligned_data : Universe) (n : Nat) (dates : List String)
    (hlen : ∀ p ∈ aligned_data, p.2.length = n)
    (hdate : ∀ p ∈ aligned_data, ∀ i r, p.2.get? i = some r → r.Date = dates.get? i)
    (s0 : String) (rows0 : List Record)
    (hrows0 : aligned_data.lookup s0 = some rows0)
    (symbols : List String) (hsyms : ∀ s ∈ symbols, s ∈ aligned_data.map Prod.fst)
    (i : Nat) (hin : i < n) :
    masterRowAt aligned_data symbols rows0 i = some
      ⟨dates.get? i, symbols.map (fun s => (s ++ "_Close", closeAt aligned_data s i))⟩ := by
  have hmem0 := lookup_mem aligned_data s0 rows0 hrows0
  have hr0len : rows0.length = n := hlen _ hmem0
  have hi : i < rows0.length := by omega
  obtain ⟨r0, hr0⟩ : ∃ r0, rows0.get? i = some r0 := ⟨rows0.get ⟨i, hi⟩, List.get?_eq_get hi⟩
  have hd : r0.Date = dates.get? i := hdate _ hmem0 i r0 hr0
  rw [masterRowAt]
  simp only [hr0, closesAt_eq aligned_data i n hlen hin symbols hsyms]
  simp [hd]

theorem build_master_dataset_correct (aligned_data : Universe) (n : Nat)
    (dates : List String)
    (hne : aligned_data ≠ [])
    (hnodup : (aligned_data.map Prod.fst).Nodup)
    (hlen : ∀ p ∈ aligned_data, p.2.length = n)
    (hdate : ∀ p ∈ aligned_data, ∀ i r, p.2.get? i = some r → r.Date = dates.get? i) :
    ∃ table, build_master_dataset aligned_data = some table ∧
      table.length = n ∧
      ∀ i, i < n → table.get? i = some
        ⟨dates.get? i,
         ((aligned_data.map Prod.fst).insertionSort (· ≤ ·)).map
           (fun s => (s ++ "_Close", closeAt aligned_data s i))⟩ := by
  have hsymsub : ∀ s ∈ (aligned_data.map Prod.fst).insertionSort (· ≤ ·),
      s ∈ aligned_data.map Prod.fst := by
    intro s hs
    exact (List.mem_insertionSort _).mp hs
  have hsne : (aligned_data.map Prod.fst).insertionSort (· ≤ ·) ≠ [] := by
    intro hnil
    have hlen0 := congrArg List.length hnil
    rw [List.length_insertionSort, List.length_map] at hlen0
    exact hne (List.eq_nil_of_length_eq_zero hlen0)
  obtain ⟨s0, symtail, hsym⟩ :
      ∃ s0 symtail, (aligned_data.map Prod.fst).insertionSort (· ≤ ·) = s0 :: symtail := by
    cases hs : (aligned_data.map Prod.fst).insertionSort (· ≤ ·) with
    | nil => exact absurd hs hsne
    | cons a l => exact ⟨a, l, rfl⟩
  have hs0keys : s0 ∈ aligned_data.map Prod.fst := by
    apply hsymsub
    rw [hsym]
    exact List.mem_cons_self _ _
  obtain ⟨rows0, hrows0⟩ := mem_keys_lookup_isSome aligned_data s0 hs0keys
  have hr0len : rows0.length = n := hlen _ (lookup_mem aligned_data s0 rows0 hrows0)
  have hrowAt := fun (i : Nat) (hin : i < n) =>
    masterRowAt_eq aligned_data n dates hlen hdate s0 rows0 hrows0
      ((aligned_data.map Prod.fst).insertionSort (· ≤ ·)) hsymsub i hin
  have hbuild := buildMasterRows_eq aligned_data
    ((aligned_data.map Prod.fst).insertionSort (· ≤ ·)) rows0 n
    (fun i => ⟨dates.get? i,
      ((aligned_data.map Prod.fst).insertionSort (· ≤ ·)).map
        (fun s => (s ++ "_Close", closeAt aligned_data s i))⟩)
    hrowAt (List.range rows0.length)
    (by intro i hi; rw [List.mem_range] at hi; omega)
  refine ⟨(List.range rows0.length).map (fun i =>
      ⟨dates.get? i, ((aligned_data.map Prod.fst).insertionSort (· ≤ ·)).map
        (fun s => (s ++ "_Close", closeAt aligned_data s i))⟩), ?_, ?_, ?_⟩
  · rw [build_master_dataset]
    simp only [hsym, hrows0]
    rw [← hsym]
    exact hbuild
  · simp only [List.length_map, List.length_range]
    exact hr0len
  · intro i hin
    rw [List.get?_map, List.get?_range (by omega : i < rows0.length)]
    rfl

/-- C9: `build_master_dataset` on the empty mapping returns the empty
table; on a non-empty mapping of aligned series of common length `n` it
returns exactly `n` rows, the i-th carrying the i-th calendar date and one
`<symbol>_Close` column per symbol, in lexicographic symbol order, holding
that symbol's (possibly null) Close at index i. -/
theorem build_master_dataset_spec :
    build_master_dataset ([] : Universe) = some [] ∧
    ∀ (aligned_data : Universe) (n : Nat) (dates : List String),
      aligned_data ≠ [] →
      (aligned_data.map Prod.fst).Nodup →
      (∀ p ∈ aligned_data, p.2.length = n) →
      dates.length = n →
      (∀ p ∈ aligned_data, ∀ i r, p.2.get? i = some r → r.Date = dates.get? i) →
      ∃ table, build_master_dataset aligned_data = some table ∧
        table.length = n ∧
        ((aligned_data.map Prod.fst).insertionSort (· ≤ ·)).Sorted (· ≤ ·) ∧
        ∀ i, i < n → table.get? i = some
          ⟨dates.get? i,
           ((aligned_data.map Prod.fst).insertionSort (· ≤ ·)).map
             (fun s => (s ++ "_Close", closeAt aligned_data s i))⟩ := by
  refine ⟨rfl, ?_⟩
  intro aligned_data n dates hne hnodup hlen hdlen hdate
  obtain ⟨table, h1, h2, h3⟩ :=
    build_master_dataset_correct aligned_data n dates hne hnodup hlen hdate
  exact ⟨table, h1, h2, List.sorted_insertionSort _ _, h3⟩

/-- Witness for C9 on a one-symbol aligned mapping. -/
theorem build_master_dataset_spec_witness :
    ∃ table, build_master_dataset [("A", [exRowA])] = some table ∧
      table.length = 1 ∧
      (((([("A", [exRowA])] : Universe).map Prod.fst).insertionSort (· ≤ ·)).Sorted (· ≤ ·)) ∧
      ∀ i, i < 1 → table.get? i = some
        ⟨(["2020-01-01"] : List String).get? i,
         ((([("A", [exRowA])] : Universe).map Prod.fst).insertionSort (· ≤ ·)).map
           (fun s => (s ++ "_Close", closeAt [("A", [exRowA])] s i))⟩ :=
  build_master_dataset_spec.2 [("A", [exRowA])] 1 ["2020-01-01"]
    (by simp) (by simp) (by simp [exRowA])
    (by simp)
    (by
      intro p hp i r hr
      simp only [List.mem_singleton] at hp
      subst hp
      cases i with
      | zero =>
        simp only [List.get?_cons_zero] at hr
        injection hr with hr
        subst hr
        rfl
      | succ k => simp at hr)

theorem etl_clean_keys (uni : Universe) :
    (etl_clean uni).map Prod.fst = uni.map Prod.fst := by
  simp [etl_clean]

theorem align_keys (all_assets_data : Universe) (master_calendar : List String) :
    (align_assets_to_calendar all_assets_data master_calendar).map Prod.fst =
      all_assets_data.map Prod.fst := by
  simp [align_assets_to_calendar]

theorem flatMap_filter_nonempty (uni : Universe) :
    (uni.filter (fun p => !p.2.isEmpty)).flatMap (fun p => p.2) =
      uni.flatMap (fun p => p.2) := by
  induction uni with
  | nil => rfl
  | cons p rest ih =>
    cases hp : p.2 with
    | nil => simp [List.filter_cons, hp, ih]
    | cons r rs => simp [List.filter_cons, hp, ih]

theorem build_master_calendar_filter (uni : Universe) :
    build_master_calendar uni =
      build_master_calendar (uni.filter (fun p => !p.2.isEmpty)) := by
  unfold build_master_calendar
  rw [flatMap_filter_nonempty]

theorem alignOne_date (rows : List Record) (master_calendar : List String)
    (i : Nat) (r : Record) (h : (alignOne rows master_calendar).get? i = some r) :
    r.Date = master_calendar.get? i := by
  rw [alignOne, List.get?_map] at h
  cases hc : master_calendar.get? i with
  | none => rw [hc] at h; simp at h
  | some d =>
    rw [hc] at h
    simp only [Option.map_some'] at h
    injection h with h
    subst h
    cases hdr : dateToRow rows d with
    | some row =>
      simp only [hdr]
      exact dateToRow_date rows d row hdr
    | none => simp [hdr, placeholderRow]

theorem alignOne_of_nil (master_calendar : List String) (i : Nat) (d : String)
    (h : master_calendar.get? i = some d) :
    (alignOne [] master_calendar).get? i = some (placeholderRow d) := by
  rw [alignOne_get? [] master_calendar i d h]
  rfl

/-- C1 (amended): a symbol whose cleaned series is empty does not halt the
pipeline and contributes no dates to the master calendar, but the master
table keeps one `<symbol>_Close` column per symbol of the universe —
including the empty one, whose column is all-null — with one row per
master-calendar date. -/
theorem etl_master_amended (uni : Universe) (hnodup : (uni.map Prod.fst).Nodup) :
    ∃ table, etl_master uni = some table ∧
      table.length = (build_master_calendar (etl_clean uni)).length ∧
      build_master_calendar (etl_clean uni) =
        build_master_calendar ((etl_clean uni).filter (fun p => !p.2.isEmpty)) ∧
      (∀ row ∈ table, row.closes.map Prod.fst =
        ((uni.map Prod.fst).insertionSort (· ≤ ·)).map (fun s => s ++ "_Close")) ∧
      (∀ row ∈ table, ∀ s rows, (s, rows) ∈ etl_clean uni → rows = [] →
        (s ++ "_Close", (none : Option Int)) ∈ row.closes) := by
  cases huni : uni with
  | nil =>
    refine ⟨[], rfl, rfl, rfl, ?_, ?_⟩
    · intro row hrow
      simp at hrow
    · intro row hrow
      simp at hrow
  | cons p0 rest =>
    rw [← huni]
    have hkeysC : (etl_clean uni).map Prod.fst = uni.map Prod.fst := etl_clean_keys uni
    have hkeysA : (align_assets_to_calendar (etl_clean uni)
        (build_master_calendar (etl_clean uni))).map Prod.fst = uni.map Prod.fst :=
      (align_keys _ _).trans hkeysC
    have hneA : align_assets_to_calendar (etl_clean uni)
        (build_master_calendar (etl_clean uni)) ≠ [] := by
      intro h0
      have := congrArg List.length (h0 ▸ hkeysA)
      simp [huni] at this
    have hnodupA : ((align_assets_to_calendar (etl_clean uni)
        (build_master_calendar (etl_clean uni))).map Prod.fst).Nodup := by
      rw [hkeysA]; exact hnodup
    have hlenA : ∀ q ∈ align_assets_to_calendar (etl_clean uni)
        (build_master_calendar (etl_clean uni)),
        q.2.length = (build_master_calendar (etl_clean uni)).length := by
      intro q hq
      rw [align_assets_to_calendar] at hq
      obtain ⟨q0, _, hq0⟩ := List.mem_map.mp hq
      rw [← hq0]
      exact alignOne_length _ _
    have hdateA : ∀ q ∈ align_assets_to_calendar (etl_clean uni)
        (build_master_calendar (etl_clean uni)), ∀ i r, q.2.get? i = some r →
        r.Date = (build_master_calendar (etl_clean uni)).get? i := by
      intro q hq i r hr
      rw [align_assets_to_calendar] at hq
      obtain ⟨q0, _, hq0⟩ := List.mem_map.mp hq
      rw [← hq0] at hr
      exact alignOne_date _ _ i r hr
    obtain ⟨table, hbmd, hlen_table, hget⟩ :=
      build_master_dataset_correct _ (build_master_calendar (etl_clean uni)).length
        (build_master_calendar (etl_clean uni)) hneA hnodupA hlenA hdateA
    refine ⟨table, hbmd, hlen_table, build_master_calendar_filter _, ?_, ?_⟩
    · intro row hrow
      obtain ⟨i, hi⟩ := List.mem_iff_get?.mp hrow
      have hin : i < (build_master_calendar (etl_clean uni)).length := by
        rcases List.get?_eq_some.mp hi with ⟨hlt, _⟩
        omega
      rw [hget i hin] at hi
      injection hi with hi
      rw [← hi]
      simp only [List.map_map, hkeysA]
      rfl
    · intro row hrow s rows hmem hrows_nil
      obtain ⟨i, hi⟩ := List.mem_iff_get?.mp hrow
      have hin : i < (build_master_calendar (etl_clean uni)).length := by
        rcases List.get?_eq_some.mp hi with ⟨hlt, _⟩
        omega
      rw [hget i hin] at hi
      injection hi with hi
      rw [← hi]
      have hskeys : s ∈ (etl_clean uni).map Prod.fst :=
        List.mem_map.mpr ⟨(s, rows), hmem, rfl⟩
      have hssorted : s ∈ ((align_assets_to_calendar (etl_clean uni)
          (build_master_calendar (etl_clean uni))).map Prod.fst).insertionSort (· ≤ ·) := by
        rw [List.mem_insertionSort, hkeysA, ← hkeysC]
        exact hskeys
      have hclose : closeAt (align_assets_to_calendar (etl_clean uni)
          (build_master_calendar (etl_clean uni))) s i = none := by
        have hlook : (align_assets_to_calendar (etl_clean uni)
            (build_master_calendar (etl_clean uni))).lookup s =
            some (alignOne rows (build_master_calendar (etl_clean uni))) := by
          rw [lookup_align, lookup_of_mem_nodup (etl_clean uni) s rows hmem
            (by rw [hkeysC]; exact hnodup)]
          rfl
        obtain ⟨d, hd⟩ : ∃ d, (build_master_calendar (etl_clean uni)).get? i = some d :=
          ⟨_, List.get?_eq_get hin⟩
        rw [hrows_nil] at hlook
        simp only [closeAt, hlook, alignOne_of_nil _ i d hd, placeholderRow]
      rw [← hclose]
      exact List.mem_map.mpr ⟨s, hssorted, rfl⟩

/-- Counterexample to C1 as stated: in `exUniverse` the symbol `B` cleans
to the empty series, yet the master table still has a `B_Close` column
(holding null), so the empty symbol is not absent from the columns. -/
theorem etl_master_counterexample :
    remove_invalid_rows (clean_with_forward_fill [exRowB]) = [] ∧
    etl_master exUniverse =
      some [⟨some "2020-01-01", [("A_Close", some 1), ("B_Close", none)]⟩] := by
  constructor
  · rfl
  · have hAB : ("A" : String) ≤ "B" := by
      rw [String.le_iff_toList_le]
      decide
    have hkeys : (align_assets_to_calendar (etl_clean exUniverse)
        (build_master_calendar (etl_clean exUniverse))).map Prod.fst = ["A", "B"] := by
      rfl
    have hsort : ((align_assets_to_calendar (etl_clean exUniverse)
        (build_master_calendar (etl_clean exUniverse))).map Prod.fst).insertionSort
          (· ≤ ·) = ["A", "B"] := by
      rw [hkeys]
      simp [List.insertionSort, List.orderedInsert, hAB]
    show build_master_dataset (align_assets_to_calendar (etl_clean exUniverse)
        (build_master_calendar (etl_clean exUniverse))) = _
    rw [build_master_dataset.eq_def, hsort]
    rfl

/-- Witness for the amended C1 on the example universe. -/
theorem etl_master_amended_witness :
    ∃ table, etl_master exUniverse = some table ∧
      table.length = (build_master_calendar (etl_clean exUniverse)).length ∧
      build_master_calendar (etl_clean exUniverse) =
        build_master_calendar ((etl_clean exUniverse).filter (fun p => !p.2.isEmpty)) ∧
      (∀ row ∈ table, row.closes.map Prod.fst =
        ((exUniverse.map Prod.fst).insertionSort (· ≤ ·)).map (fun s => s ++ "_Close")) ∧
      (∀ row ∈ table, ∀ s rows, (s, rows) ∈ etl_clean exUniverse → rows = [] →
        (s ++ "_Close", (none : Option Int)) ∈ row.closes) :=
  etl_master_amended exUniverse (by decide)

theorem detectMissingGoRaw_eq (asset_data : List RawRecord) : ∀ (i : Nat) (acc : Nat × List Nat),
    detect_missing_values_raw.detectMissingGoRaw i acc asset_data =
      detectMissingGo i acc (asset_data.map eraseRecord) := by
  induction asset_data with
  | nil => intro i acc; rfl
  | cons row rest ih =>
    intro i acc
    rw [detect_missing_values_raw.detectMissingGoRaw, List.map_cons, detectMissingGo]
    exact ih (i + 1) _

theorem rowAnomsRaw_map (i : Nat) (row : RawRecord) :
    (rowAnomsRaw i row).map eraseAnomaly = rowAnoms i (eraseRecord row) := by
  obtain ⟨D, O, H, L, C, V⟩ := row
  simp only [rowAnomsRaw, rowAnoms, eraseRecord]
  cases hL : getVal L with
  | none => rfl
  | some low =>
    cases hH : getVal H with
    | none => rfl
    | some high =>
      cases hC : getVal C with
      | none =>
        cases hO : getVal O with
        | none =>
          by_cases h1 : high < low <;>
            simp [hL, hH, hC, hO, h1, eraseAnomaly, eraseRecord]
        | some o =>
          by_cases h1 : high < low <;> by_cases h3 : o < low ∨ o > high <;>
            simp [hL, hH, hC, hO, h1, h3, eraseAnomaly, eraseRecord]
      | some c =>
        cases hO : getVal O with
        | none =>
          by_cases h1 : high < low <;> by_cases h2 : c < low ∨ c > high <;>
            simp [hL, hH, hC, hO, h1, h2, eraseAnomaly, eraseRecord]
        | some o =>
          by_cases h1 : high < low <;> by_cases h2 : c < low ∨ c > high <;>
            by_cases h3 : o < low ∨ o > high <;>
              simp [hL, hH, hC, hO, h1, h2, h3, eraseAnomaly, eraseRecord]

theorem detectInconsGoRaw_map (asset_data : List RawRecord) : ∀ i : Nat,
    (detect_inconsistencies_raw.go i asset_data).map eraseAnomaly =
      detectInconsGo i (asset_data.map eraseRecord) := by
  induction asset_data with
  | nil => intro i; rfl
  | cons row rest ih =>
    intro i
    rw [detect_inconsistencies_raw.go, List.map_cons, detectInconsGo, List.map_append,
      rowAnomsRaw_map, ih]

theorem filter_map_erase (asset_data : List RawRecord) :
    (asset_data.filter (fun row => (getVal row.Close).isSome)).map eraseRecord =
      (asset_data.map eraseRecord).filter (fun row => row.Close.isSome) := by
  induction asset_data with
  | nil => rfl
  | cons r rest ih =>
    by_cases h : (getVal r.Close).isSome
    · have h2 : ((eraseRecord r).Close.isSome) = true := h
      simp only [List.filter_cons, List.map_cons, h, h2, if_true, List.map_cons, ih]
    · have h2 : ¬ (((eraseRecord r).Close.isSome) = true) := h
      simp only [List.filter_cons, List.map_cons, Bool.not_eq_true] at *
      simp only [h, h2, if_false, ih]
      simp [h, h2, ih]

/-- C10: the detector and cleaner treat an absent numeric key exactly like
a key present with a null value (they read fields with `dict.get`), and
raise no structural error: running them on raw dicts agrees with running
them on the rows with absence collapsed to null. -/
theorem absent_key_like_null (asset_data : List RawRecord) :
    detect_missing_values_raw asset_data =
      detect_missing_values (asset_data.map eraseRecord) ∧
    (detect_inconsistencies_raw asset_data).map eraseAnomaly =
      detect_inconsistencies (asset_data.map eraseRecord) ∧
    (remove_invalid_rows_raw asset_data).map eraseRecord =
      remove_invalid_rows (asset_data.map eraseRecord) := by
  refine ⟨?_, ?_, ?_⟩
  · cases asset_data with
    | nil => rfl
    | cons row rest =>
      show detect_missing_values_raw.detectMissingGoRaw 0 (0, []) (row :: rest) =
        detectMissingGo 0 (0, []) ((row :: rest).map eraseRecord)
      exact detectMissingGoRaw_eq (row :: rest) 0 (0, [])
  · exact detectInconsGoRaw_map asset_data 0
  · have h1 : remove_invalid_rows_raw asset_data =
        asset_data.filter (fun row => (getVal row.Close).isSome) := by
      simpa using foldl_append_filter (fun row : RawRecord => (getVal row.Close).isSome)
        asset_data []
    rw [h1, remove_invalid_rows_eq_filter, filter_map_erase]

/-- Witness for C3: the null Close at position 1 is filled from the valid
Close at position 0, the other fields untouched. -/
theorem clean_with_forward_fill_spec_witness :
    (clean_with_forward_fill
        [⟨some "2020-01-01", none, none, none, some 5, none⟩,
         ⟨some "2020-01-02", some 1, none, none, none, none⟩]).get? 1 =
      some ⟨some "2020-01-02", some 1, none, none, some 5, none⟩ :=
  (clean_with_forward_fill_spec
      [⟨some "2020-01-01", none, none, none, some 5, none⟩,
       ⟨some "2020-01-02", some 1, none, none, none, none⟩]).2 1
    ⟨some "2020-01-02", some 1, none, none, none, none⟩ rfl

/-- Witness for C5: the kept row of a two-row series has non-null Close. -/
theorem remove_invalid_rows_spec_witness :
    (⟨some "2020-01-01", none, none, none, some 1, none⟩ : Record) ∈
      remove_invalid_rows
        [⟨some "2020-01-01", none, none, none, none, none⟩,
         ⟨some "2020-01-01", none, none, none, some 1, none⟩] ∧
    (⟨some "2020-01-01", none, none, none, some 1, none⟩ : Record).Close ≠ none :=
  ⟨by decide,
    (remove_invalid_rows_spec
        [⟨some "2020-01-01", none, none, none, none, none⟩,
         ⟨some "2020-01-01", none, none, none, some 1, none⟩]).2.2.1
      ⟨some "2020-01-01", none, none, none, some 1, none⟩ (by decide)⟩

end ETL
